import Mathlib

/-!
Shallow embedding of `training.py` from the OthelloZero repository: the
`OthelloMCTS` adapter methods, `execute_episode`, `duel_between_neural_networks`
and the `training` orchestrator loop.  External collaborators (the `MCTS` base
class, the `Othello` rules engine and the `Net.NNet` wrapper) are modelled
from the specification where their behaviour decides a claim; everything else
is translated directly from the source.
-/

set_option autoImplicit false

/-- Modelled from the spec: the two players of the game (the `OthelloPlayer`
enum of the `Othello` module, which is out of scope for the core). -/
inductive OthelloPlayer where
  | black
  | white
deriving DecidableEq, Repr

/-- A board cell: the (row, col) index pair of an action, the index type of
the numpy arrays built in `get_policy_action_probabilities`. -/
abbrev Cell : Type := ℕ × ℕ

/-- Row-major list of all cells of an n-by-n board; the index set of the
n-by-n numpy arrays in `get_policy_action_probabilities`, in the order
`np.argwhere` enumerates them. -/
def allCells (n : ℕ) : List Cell :=
  List.product (List.range n) (List.range n)

/-- The maximum entry of a list of rationals, 0 for the empty list: models
`ndarray.max()` on the probability arrays of `get_policy_action_probabilities`,
whose entries are all non-negative (visit counts). -/
def arrayMax (l : List ℚ) : ℚ := l.foldr max 0

/-- The probability array built by the temperature-0 branch of
`get_policy_action_probabilities` before renormalisation: entry `N(state,
action)` at each legal action's cell, 0 elsewhere (`np.zeros` plus the
assignment loop).  `visits` is the MCTS visit-count accessor `self.N`. -/
def tempZeroProbs (actions : List Cell) (visits : Cell → ℕ) : Cell → ℚ :=
  fun c => if c ∈ actions then (visits c : ℚ) else 0

/-- The list `bests = np.argwhere(probabilities == probabilities.max())` of
the temperature-0 branch, in row-major (argwhere) order. -/
def tempZeroBests (n : ℕ) (actions : List Cell) (visits : Cell → ℕ) : List Cell :=
  (allCells n).filter
    (fun c => tempZeroProbs actions visits c
      = arrayMax ((allCells n).map (tempZeroProbs actions visits)))

/-- The temperature-0 branch of `get_policy_action_probabilities`: a one-hot
array at `random.choice(bests)`.  The random draw is modelled by the
parameter `choice`, an arbitrary selection function from a non-empty list. -/
def policyTemperatureZero (n : ℕ) (choice : List Cell → Cell)
    (actions : List Cell) (visits : Cell → ℕ) : Cell → ℚ :=
  fun c => if c = choice (tempZeroBests n actions visits) then 1 else 0

/-- The unnormalised weight array of the positive-temperature branch of
`get_policy_action_probabilities`: entry `N(state, action) ** (1 /
temperature)` at each legal action's cell, 0 elsewhere.  The float power is
embedded as the real power `Real.rpow`. -/
noncomputable def posWeight (actions : List Cell) (visits : Cell → ℕ)
    (temperature : ℚ) : Cell → ℝ :=
  fun c =>
    if c ∈ actions then (visits c : ℝ) ^ ((1 : ℝ) / (temperature : ℝ)) else 0

/-- The positive-temperature branch of `get_policy_action_probabilities`:
`probabilities / np.sum(probabilities)`, the sum running over all cells of
the n-by-n array. -/
noncomputable def policyTemperaturePos (n : ℕ) (actions : List Cell)
    (visits : Cell → ℕ) (temperature : ℚ) : Cell → ℝ :=
  fun c =>
    posWeight actions visits temperature c
      / ((allCells n).map (posWeight actions visits temperature)).sum

/-- `OthelloMCTS.get_policy_action_probabilities(state, temperature)` from
`training.py`: dispatches on `temperature == 0` between the one-hot branch
and the normalised power branch.  `actions` stands for
`self._get_state_actions(state)` and `visits` for `self.N(state, .)`;
the temperature-0 one-hot of rationals is cast into the real-valued array
type shared by both branches. -/
noncomputable def getPolicyActionProbabilities (n : ℕ)
    (choice : List Cell → Cell) (actions : List Cell) (visits : Cell → ℕ)
    (temperature : ℚ) : Cell → ℝ :=
  if temperature = 0 then
    fun c => ((policyTemperatureZero n choice actions visits c : ℚ) : ℝ)
  else
    policyTemperaturePos n actions visits temperature

/-- Lookup in an association-list model of the Python dict
`self._predict_cache`; the most recent binding for a key wins (keys are in
fact never rebound, which claim C6 proves). -/
def cacheLookup {K P : Type} [DecidableEq K] (k : K) :
    List (K × P) → Option P
  | [] => none
  | e :: rest => if e.1 = k then some e.2 else cacheLookup k rest

/-- A run of `OthelloMCTS._neural_network_predict` over a sequence of states
(the states the surrounding `simulate` calls evaluate, in order), threading
the cache exactly as the source does: on a hit the cache is unchanged and
the network is not consulted; on a miss `self._neural_network.predict` is
invoked and its result stored under the state's hash.  Returns the final
cache together with the log of keys on which `predict` was invoked. -/
def predictRun {S K P : Type} [DecidableEq K] (hash : S → K)
    (predict : S → P) : List S → List (K × P) → List (K × P) × List K
  | [], cache => (cache, [])
  | s :: rest, cache =>
    match cacheLookup (hash s) cache with
    | some _ => predictRun hash predict rest cache
    | none =>
      let r := predictRun hash predict rest ((hash s, predict s) :: cache)
      (r.1, hash s :: r.2)

/-- `OthelloMCTS.get_next_state(state, action)` from `training.py`.
Modelled from the spec: `flip_board_squares`, `has_player_actions_on_board`
and `invert_board` are operations of the out-of-scope `Othello` rules
engine, taken as abstract parameters; per the spec's transition contract,
`flip_board_squares` yields the board with the move's flips applied (in the
source it mutates the `np.copy` of the state in place). -/
def get_next_state {B A : Type} (flip_board_squares : B → OthelloPlayer → A → B)
    (has_player_actions_on_board : B → OthelloPlayer → Bool)
    (invert_board : B → B) (state : B) (action : A) : B :=
  let board := flip_board_squares state OthelloPlayer.black action
  if has_player_actions_on_board board OthelloPlayer.white then
    invert_board board
  else
    board

/-- The final relabelling pass of `execute_episode`: given the winner
reported by `game.get_winning_player()` (modelled from the spec as the
winning player, or `none` as the draw indicator), map each recorded
`(state, policy, player)` triple to `(state, policy, 1 if winner == player
else -1)`. -/
def labelExamples {S Q : Type} (winner : Option OthelloPlayer)
    (examples : List (S × Q × OthelloPlayer)) : List (S × Q × ℤ) :=
  examples.map (fun e => (e.1, e.2.1, if winner = some e.2.2 then (1 : ℤ) else -1))

/-- A Python runtime value relevant to the duel/tally code: either a player
value (a member of the `OthelloPlayer` enum, or `None` as draw indicator)
or a neural-network object, identified by an object identity number. -/
inductive PyVal where
  | playerVal (p : Option OthelloPlayer)
  | netVal (id : ℕ)
deriving DecidableEq, Repr

/-- The Python `is` identity test on the modelled values: values of
different runtime types are never identical; enum members and network
objects are identical exactly when they are the same object. -/
def pyIs (a b : PyVal) : Bool := decide (a = b)

/-- `duel_between_neural_networks(board_size, nn1, nn2)` from `training.py`:
the game loop itself belongs to the out-of-scope rules engine, so the
eventual game outcome `game.get_winning_player()[0]` is taken as the
abstract parameter `game_winner`; the function returns exactly that player
value (never one of its two network arguments). -/
def duel_between_neural_networks (nn1 nn2 : ℕ)
    (game_winner : Option OthelloPlayer) : PyVal :=
  PyVal.playerVal game_winner

/-- The duel-tally loop of `training`: counts the duel results `winner` for
which `winner is neural_network` holds, where `neural_network` is the newly
trained network object. -/
def countNewNetVictories (neural_network : ℕ) (winners : List PyVal) : ℕ :=
  winners.countP (fun w => pyIs w (PyVal.netVal neural_network))

/-- Observable events of one iteration of the `training` loop, in program
order: the baseline copy, the in-place `train` call (identified by the
resulting parameter state), the `save_checkpoint` call (identified by the
parameter state written to disk), and the promotion-gate outcome. -/
inductive TrainEvent where
  | copied (id : ℕ)
  | trainedEv (id : ℕ)
  | savedEv (id : ℕ)
  | promotedEv
  | revertedEv
deriving DecidableEq, Repr

/-- Recognises checkpoint-save events. -/
def isSaveEvent : TrainEvent → Bool
  | TrainEvent.savedEv _ => true
  | _ => false

/-- One iteration of the `training` loop from `training.py`, over a model in
which a network is its parameter state (a number) and `train` maps
parameters and examples to new parameters.  In order: snapshot
`old_neural_network = neural_network.copy()`; extend `training_examples`
with this iteration's episode examples; train in place on the full
accumulated list; save a checkpoint of the trained parameters; run the
duels (their tally `new_net_victories` is a parameter here); apply the
promotion gate, reverting `neural_network` to the snapshot when the tally
is below `victory_threshold`.  Returns the next `(neural_network,
training_examples)` state and the iteration's event list. -/
def runIteration {E : Type} (train : ℕ → List E → ℕ) (victory_threshold : ℕ)
    (episodeExamples : List E) (new_net_victories : ℕ)
    (st : ℕ × List E) : (ℕ × List E) × List TrainEvent :=
  let old_neural_network := st.1
  let training_examples := st.2 ++ episodeExamples
  let trained := train st.1 training_examples
  ((if victory_threshold ≤ new_net_victories then trained
    else old_neural_network, training_examples),
   [TrainEvent.copied old_neural_network, TrainEvent.trainedEv trained,
    TrainEvent.savedEv trained,
    if victory_threshold ≤ new_net_victories then TrainEvent.promotedEv
    else TrainEvent.revertedEv])

/-- The per-iteration arguments passed to `neural_network.train` along a run
of the `training` loop: iteration batches are given as a list of (episode
examples, duel tally) pairs, and each iteration contributes the accumulated
`training_examples` list it trains on. -/
def examplesTrace {E : Type} (train : ℕ → List E → ℕ) (victory_threshold : ℕ) :
    List (List E × ℕ) → (ℕ × List E) → List (List E)
  | [], _ => []
  | (batch, tally) :: rest, st =>
    (st.2 ++ batch) ::
      examplesTrace train victory_threshold rest
        (runIteration train victory_threshold batch tally st).1

/-- The move-decision loop of `execute_episode`, instrumented to record, for
each move-decision, the game state and the `OthelloMCTS` search state the
decision starts from.  The game dynamics (`game.has_finished`,
`game.board`, the policy/argmax/`game.play` step) and the `MCTS.simulate`
state transformer are abstract parameters; the loop runs `num_simulations`
simulate calls on the current board and then advances the game, threading
the single `mcts` object created before the loop.  Recursion is on an
explicit fuel bound since the game loop's termination is a property of the
rules engine. -/
def episodeTrace {G S M : Type} (has_finished : G → Bool) (board : G → S)
    (play : G → S → G) (simulate : M → S → M) (num_simulations : ℕ) :
    ℕ → G → M → List (G × M)
  | 0, _, _ => []
  | fuel + 1, game, mcts =>
    if has_finished game then []
    else
      (game, mcts) ::
        episodeTrace has_finished board play simulate num_simulations fuel
          (play game (board game))
          ((fun m => simulate m (board game))^[num_simulations] mcts)

/-- The transformation one move-decision of `execute_episode` applies to the
(game, mcts) pair: run `num_simulations` simulate calls on the current
board, then play the chosen move. -/
def decisionStep {G S M : Type} (board : G → S) (play : G → S → G)
    (simulate : M → S → M) (num_simulations : ℕ) (gm : G × M) : G × M :=
  (play gm.1 (board gm.1),
   (fun m => simulate m (board gm.1))^[num_simulations] gm.2)

/-! Helper lemmas. -/

theorem episodeTrace_getElem_zero {G S M : Type} (has_finished : G → Bool)
    (board : G → S) (play : G → S → G) (simulate : M → S → M)
    (num_simulations : ℕ) (fuel : ℕ) (game : G) (mcts : M)
    (h : 0 < (episodeTrace has_finished board play simulate num_simulations
        fuel game mcts).length) :
    (episodeTrace has_finished board play simulate num_simulations
        fuel game mcts)[0]? = some (game, mcts) := by
  cases fuel with
  | zero => simp [episodeTrace] at h
  | succ k =>
    by_cases hf : has_finished game
    · simp [episodeTrace, hf] at h
    · simp [episodeTrace, hf]

/-! Claim theorems. -/

/-- C1: falsified by the code.  `duel_between_neural_networks` returns the
winning player value obtained from the game engine, never the identity of
either of its two evaluator arguments, so the orchestrator's comparison of
the returned winner against the new evaluator counts zero victories no
matter how the games end. -/
theorem C1_duel_returns_player_not_evaluator (nn1 nn2 : ℕ)
    (winners : List (Option OthelloPlayer)) :
    countNewNetVictories nn2
        (winners.map (duel_between_neural_networks nn1 nn2)) = 0
    ∧ ∀ w : Option OthelloPlayer,
        duel_between_neural_networks nn1 nn2 w ≠ PyVal.netVal nn1
        ∧ duel_between_neural_networks nn1 nn2 w ≠ PyVal.netVal nn2 := by
  constructor
  · simp [countNewNetVictories, List.countP_eq_zero, pyIs,
      duel_between_neural_networks]
  · intro w
    exact ⟨by simp [duel_between_neural_networks],
      by simp [duel_between_neural_networks]⟩

/-- C2 counterexample: modelling the search state as a simulate-call counter
(a fresh OthelloMCTS = 0, each simulate call adds 1) and a two-decision game,
the trace of search states at the start of each move-decision of
execute_episode is [0, 1]: the second move-decision starts from the state
left by the first decision's simulations, not from a fresh instance. -/
theorem C2_counterexample :
    ¬ ∀ e ∈ episodeTrace (fun g : ℕ => decide (g = 0)) (fun _ => ())
        (fun g _ => g - 1) (fun m _ => m + 1) 1 2 2 0, e.2 = 0 := by
  decide

/-- C2 amended: execute_episode constructs a single OthelloMCTS before the
move loop; each subsequent move-decision starts from exactly the search
state left by the previous decision's simulate calls (visit counts and
cache entries carry over within the episode). -/
theorem C2_single_tree_carries_over {G S M : Type} (has_finished : G → Bool)
    (board : G → S) (play : G → S → G) (simulate : M → S → M)
    (num_simulations fuel : ℕ) (game : G) (mcts : M) (i : ℕ)
    (h : i + 1 < (episodeTrace has_finished board play simulate
        num_simulations fuel game mcts).length) :
    (episodeTrace has_finished board play simulate num_simulations
        fuel game mcts)[i + 1]?
      = ((episodeTrace has_finished board play simulate num_simulations
          fuel game mcts)[i]?).map
          (decisionStep board play simulate num_simulations) := by
  induction fuel generalizing game mcts i with
  | zero => simp [episodeTrace] at h
  | succ k ih =>
    by_cases hf : has_finished game
    · simp [episodeTrace, hf] at h
    · rw [episodeTrace, if_neg hf] at h ⊢
      cases i with
      | zero =>
        have hlen : 0 < (episodeTrace has_finished board play simulate
            num_simulations k (play game (board game))
            ((fun m => simulate m (board game))^[num_simulations] mcts)).length := by
          simpa using Nat.lt_of_succ_lt_succ h
        simp only [List.getElem?_cons_succ, List.getElem?_cons_zero, Option.map_some]
        rw [episodeTrace_getElem_zero _ _ _ _ _ _ _ _ hlen]
        rfl
      | succ j =>
        simp only [List.getElem?_cons_succ]
        exact ih _ _ j (by simpa using Nat.lt_of_succ_lt_succ h)

/-- C2 amended, witness at the concrete two-decision game of the
counterexample, at decision index 0. -/
theorem C2_single_tree_carries_over_witness :
    (episodeTrace (fun g : ℕ => decide (g = 0)) (fun _ => ())
        (fun g _ => g - 1) (fun m _ => m + 1) 1 2 2 0)[1]?
      = ((episodeTrace (fun g : ℕ => decide (g = 0)) (fun _ => ())
          (fun g _ => g - 1) (fun m _ => m + 1) 1 2 2 0)[0]?).map
          (decisionStep (fun _ => ()) (fun g _ => g - 1) (fun m _ => m + 1) 1) :=
  C2_single_tree_carries_over (fun g : ℕ => decide (g = 0)) (fun _ => ())
    (fun g _ => g - 1) (fun m _ => m + 1) 1 2 2 0 0 (by decide)

/-- C3: the baseline carried into the next iteration is the newly trained
evaluator exactly when the duel-win tally reaches victory_threshold;
otherwise the orchestrator reverts to the parameter state snapshotted from
the baseline at the start of the iteration. -/
theorem C3_promotion_gate {E : Type} (train : ℕ → List E → ℕ)
    (victory_threshold : ℕ) (batch : List E) (new_net_victories : ℕ)
    (st : ℕ × List E)
    (hne : train st.1 (st.2 ++ batch) ≠ st.1) :
    ((runIteration train victory_threshold batch new_net_victories st).1.1
        = train st.1 (st.2 ++ batch)
      ↔ victory_threshold ≤ new_net_victories)
    ∧ (new_net_victories < victory_threshold →
        (runIteration train victory_threshold batch new_net_victories st).1.1
          = st.1) := by
  unfold runIteration
  by_cases h : victory_threshold ≤ new_net_victories
  · simp [h]
  · simp only [if_neg h]
    exact ⟨⟨fun hh => absurd hh.symm hne, fun hh => absurd hh h⟩,
      fun _ => trivial⟩

/-- C3 witness: with a training step that increments the parameter state, a
tally of 0 and threshold 1, the iteration reverts to the old snapshot. -/
theorem C3_promotion_gate_witness :
    (runIteration (fun n (_ : List Unit) => n + 1) 1 [] 0 (5, [])).1.1 = 5 :=
  (C3_promotion_gate (fun n (_ : List Unit) => n + 1) 1 [] 0 (5, [])
    (by decide)).2 (by decide)

/-- C7: get_next_state is a deterministic transition that re-expresses the
successor in mover-relative (BLACK) perspective: the post-move board is
inverted exactly when WHITE has at least one legal action on it, and is
returned uninverted when BLACK moves again. -/
theorem C7_next_state_inverts_iff_control_passes {B A : Type}
    (flip_board_squares : B → OthelloPlayer → A → B)
    (has_player_actions_on_board : B → OthelloPlayer → Bool)
    (invert_board : B → B) (state : B) (action : A)
    (hinv : invert_board (flip_board_squares state OthelloPlayer.black action)
      ≠ flip_board_squares state OthelloPlayer.black action) :
    (get_next_state flip_board_squares has_player_actions_on_board
        invert_board state action
        = invert_board (flip_board_squares state OthelloPlayer.black action)
      ↔ has_player_actions_on_board
          (flip_board_squares state OthelloPlayer.black action)
          OthelloPlayer.white = true)
    ∧ (has_player_actions_on_board
          (flip_board_squares state OthelloPlayer.black action)
          OthelloPlayer.white = false →
        get_next_state flip_board_squares has_player_actions_on_board
          invert_board state action
          = flip_board_squares state OthelloPlayer.black action) := by
  have hrw : get_next_state flip_board_squares has_player_actions_on_board
      invert_board state action
      = if has_player_actions_on_board
            (flip_board_squares state OthelloPlayer.black action)
            OthelloPlayer.white then
          invert_board (flip_board_squares state OthelloPlayer.black action)
        else
          flip_board_squares state OthelloPlayer.black action := rfl
  rw [hrw]
  cases hb : has_player_actions_on_board
      (flip_board_squares state OthelloPlayer.black action) OthelloPlayer.white
  · rw [if_neg (show ¬(false = true) by decide)]
    exact ⟨⟨fun hh => absurd hh.symm hinv, fun hh => absurd hh (by decide)⟩,
      fun _ => rfl⟩
  · rw [if_pos rfl]
    exact ⟨⟨fun _ => rfl, fun _ => rfl⟩, fun hh => absurd hh (by decide)⟩

/-- C7 witness at a concrete instantiation in which inversion is visible
(boards are numbers, flipping adds one, inversion adds one, WHITE always has
an action): the returned successor is the inverted post-move board. -/
theorem C7_witness :
    get_next_state (fun (s : ℕ) (_ : OthelloPlayer) (_ : Unit) => s + 1)
      (fun _ _ => true) (fun b => b + 1) 0 () = 2 :=
  (C7_next_state_inverts_iff_control_passes
    (fun (s : ℕ) (_ : OthelloPlayer) (_ : Unit) => s + 1)
    (fun _ _ => true) (fun b => b + 1) 0 () (by decide)).1.mpr rfl

/-- C8 counterexample: on a drawn game (winner is the draw indicator, not a
player) every recorded example is labelled -1, not 0. -/
theorem C8_counterexample :
    labelExamples none
        ([((), (), OthelloPlayer.black)] : List (Unit × Unit × OthelloPlayer))
      = [((), (), (-1 : ℤ))]
    ∧ (-1 : ℤ) ≠ 0 := by
  constructor
  · rfl
  · decide

/-- C8 amended: every example returned by execute_episode carries an outcome
assigned after the game concludes, relative to the player recorded with the
example: +1 when that player equals the reported winner and -1 otherwise
(losses and draws are both labelled -1; the outcome 0 never occurs). -/
theorem C8_outcome_labels {S Q : Type} (winner : Option OthelloPlayer)
    (examples : List (S × Q × OthelloPlayer)) :
    (∀ i : ℕ, (labelExamples winner examples)[i]?
        = (examples[i]?).map
            (fun e => (e.1, e.2.1, if winner = some e.2.2 then (1 : ℤ) else -1)))
    ∧ ∀ out ∈ labelExamples winner examples, out.2.2 = 1 ∨ out.2.2 = -1 := by
  constructor
  · intro i
    simp [labelExamples]
  · intro out hm
    unfold labelExamples at hm
    obtain ⟨e, he, rfl⟩ := List.mem_map.mp hm
    by_cases h : winner = some e.2.2
    · left; simp [h]
    · right; simp [h]

/-- C8 amended, witness: the single example of a drawn game is labelled with
an outcome in the binary scheme (here -1). -/
theorem C8_outcome_labels_witness :
    (((), (), (-1 : ℤ)) : Unit × Unit × ℤ).2.2 = 1
    ∨ (((), (), (-1 : ℤ)) : Unit × Unit × ℤ).2.2 = -1 :=
  (C8_outcome_labels none
      ([((), (), OthelloPlayer.black)] : List (Unit × Unit × OthelloPlayer))).2
    ((), (), (-1 : ℤ)) (by decide)

/-- C10: every iteration emits exactly one checkpoint save, holding the
trained candidate's parameters, positioned after the train event and before
the promotion decision; when the candidate fails the gate, the in-memory
baseline reverts to the snapshot while the saved checkpoint still holds the
rejected candidate's parameters (no further save rewrites it). -/
theorem C10_checkpoint_unconditional {E : Type} (train : ℕ → List E → ℕ)
    (victory_threshold : ℕ) (batch : List E) (new_net_victories : ℕ)
    (st : ℕ × List E)
    (hne : train st.1 (st.2 ++ batch) ≠ st.1) :
    ((runIteration train victory_threshold batch new_net_victories st).2.filter
        isSaveEvent = [TrainEvent.savedEv (train st.1 (st.2 ++ batch))])
    ∧ ((runIteration train victory_threshold batch new_net_victories st).2
        = [TrainEvent.copied st.1,
           TrainEvent.trainedEv (train st.1 (st.2 ++ batch)),
           TrainEvent.savedEv (train st.1 (st.2 ++ batch)),
           if victory_threshold ≤ new_net_victories then TrainEvent.promotedEv
           else TrainEvent.revertedEv])
    ∧ (new_net_victories < victory_threshold →
        (runIteration train victory_threshold batch new_net_victories st).1.1
          = st.1
        ∧ train st.1 (st.2 ++ batch)
          ≠ (runIteration train victory_threshold batch
              new_net_victories st).1.1) := by
  refine ⟨?_, rfl, ?_⟩
  · unfold runIteration
    by_cases h : victory_threshold ≤ new_net_victories
    · simp [h, isSaveEvent, List.filter]
    · simp [h, isSaveEvent, List.filter]
  · intro h
    have hn : ¬ victory_threshold ≤ new_net_victories := Nat.not_le.mpr h
    unfold runIteration
    simp [hn, hne]

/-- C10 witness: threshold 2, tally 1, incrementing train step: the baseline
reverts to 5 while the trained candidate 6 (the checkpoint contents)
differs from it. -/
theorem C10_checkpoint_unconditional_witness :
    (runIteration (fun n (_ : List Unit) => n + 1) 2 [] 1 (5, [])).1.1 = 5
    ∧ (fun n (_ : List Unit) => n + 1) 5 ([] ++ [])
      ≠ (runIteration (fun n (_ : List Unit) => n + 1) 2 [] 1 (5, [])).1.1 :=
  (C10_checkpoint_unconditional (fun n (_ : List Unit) => n + 1) 2 [] 1 (5, [])
    (by decide)).2.2 (by decide)

/-- Once a key is present in the cache, any further run of
`_neural_network_predict` leaves its binding untouched and never invokes
the network on it again. -/
theorem predictRun_lookup_persists {S K P : Type} [DecidableEq K]
    (hash : S → K) (predict : S → P) (k : K) (v : P) :
    ∀ (states : List S) (cache : List (K × P)),
      cacheLookup k cache = some v →
      cacheLookup k (predictRun hash predict states cache).1 = some v
      ∧ k ∉ (predictRun hash predict states cache).2 := by
  intro states
  induction states with
  | nil => intro cache h; exact ⟨h, by simp [predictRun]⟩
  | cons s rest ih =>
    intro cache h
    rw [predictRun]
    cases hl : cacheLookup (hash s) cache with
    | some p => exact ih cache h
    | none =>
      have hk : hash s ≠ k := by
        intro he
        rw [he, h] at hl
        cases hl
      have h2 : cacheLookup k ((hash s, predict s) :: cache) = some v := by
        rw [cacheLookup, if_neg hk]
        exact h
      have := ih ((hash s, predict s) :: cache) h2
      refine ⟨this.1, ?_⟩
      simp only [List.mem_cons]
      rintro (he | he)
      · exact hk he.symm
      · exact this.2 he

/-- Along any run of `_neural_network_predict`, the network is invoked at
most once per key. -/
theorem predictRun_count_le_one {S K P : Type} [DecidableEq K]
    (hash : S → K) (predict : S → P) (k : K) :
    ∀ (states : List S) (cache : List (K × P)),
      (predictRun hash predict states cache).2.count k ≤ 1 := by
  intro states
  induction states with
  | nil => intro cache; simp [predictRun]
  | cons s rest ih =>
    intro cache
    rw [predictRun]
    cases hl : cacheLookup (hash s) cache with
    | some p => exact ih cache
    | none =>
      by_cases hk : hash s = k
      · subst hk
        have hsome : cacheLookup (hash s) ((hash s, predict s) :: cache)
            = some (predict s) := by
          rw [cacheLookup, if_pos rfl]
        have hnot := (predictRun_lookup_persists hash predict (hash s)
          (predict s) rest ((hash s, predict s) :: cache) hsome).2
        simp [List.count_cons, List.count_eq_zero.mpr hnot]
      · have := ih ((hash s, predict s) :: cache)
        simpa [List.count_cons, hk] using this

/-- Running `_neural_network_predict` over a concatenation of state
sequences threads the cache sequentially. -/
theorem predictRun_append {S K P : Type} [DecidableEq K]
    (hash : S → K) (predict : S → P) :
    ∀ (l₁ l₂ : List S) (cache : List (K × P)),
      (predictRun hash predict (l₁ ++ l₂) cache).1
        = (predictRun hash predict l₂ (predictRun hash predict l₁ cache).1).1 := by
  intro l₁
  induction l₁ with
  | nil => intro l₂ cache; simp [predictRun]
  | cons s rest ih =>
    intro l₂ cache
    rw [List.cons_append, predictRun, predictRun]
    cases hl : cacheLookup (hash s) cache with
    | some p => exact ih l₂ cache
    | none => exact ih l₂ ((hash s, predict s) :: cache)

/-- C6: for a fixed OthelloMCTS instance, the underlying network's predict
is invoked at most once per state key across the whole run, and a
prediction-cache entry, once written, is never overwritten or evicted: its
binding survives unchanged under any continuation of the run. -/
theorem C6_predict_cache_write_once {S K P : Type} [DecidableEq K]
    (hash : S → K) (predict : S → P) (states extra : List S) (k : K) (v : P) :
    (predictRun hash predict states []).2.count k ≤ 1
    ∧ (cacheLookup k (predictRun hash predict states []).1 = some v →
        cacheLookup k (predictRun hash predict (states ++ extra) []).1
          = some v) := by
  refine ⟨predictRun_count_le_one hash predict k states [], fun h => ?_⟩
  rw [predictRun_append]
  exact (predictRun_lookup_persists hash predict k v extra _ h).1

/-- C6 witness: states hashed to themselves; the duplicate key 1 is
evaluated once, and its cached value survives a later repeat query. -/
theorem C6_predict_cache_write_once_witness :
    (predictRun (fun s : ℕ => s) (fun s => s + 10) [1, 1, 2] []).2.count 1 ≤ 1
    ∧ cacheLookup 1
        (predictRun (fun s : ℕ => s) (fun s => s + 10) ([1, 1, 2] ++ [1]) []).1
        = some 11 :=
  ⟨(C6_predict_cache_write_once (fun s : ℕ => s) (fun s => s + 10)
      [1, 1, 2] [1] 1 11).1,
   (C6_predict_cache_write_once (fun s : ℕ => s) (fun s => s + 10)
      [1, 1, 2] [1] 1 11).2 (by decide)⟩

/-- The accumulated training_examples list handed to train at each
iteration, for an arbitrary starting accumulator. -/
theorem examplesTrace_getElem {E : Type} (train : ℕ → List E → ℕ)
    (victory_threshold : ℕ) :
    ∀ (iters : List (List E × ℕ)) (st : ℕ × List E) (i : ℕ),
      i < iters.length →
      (examplesTrace train victory_threshold iters st)[i]?
        = some (st.2 ++ ((iters.map Prod.fst).take (i + 1)).flatten) := by
  intro iters
  induction iters with
  | nil => intro st i h; cases h
  | cons p rest ih =>
    intro st i h
    obtain ⟨batch, tally⟩ := p
    cases i with
    | zero =>
      simp [examplesTrace]
    | succ j =>
      rw [examplesTrace]
      simp only [List.getElem?_cons_succ]
      have hr : (runIteration train victory_threshold batch tally st).1.2
          = st.2 ++ batch := rfl
      rw [ih _ j (by simpa using Nat.lt_of_succ_lt_succ h), hr]
      simp [List.append_assoc]

/-- C9: the example list passed to train at iteration i (1-based i = index
+ 1) is the concatenation of all episode batches of iterations 1..i — the
accumulator starts empty and is never cleared, whatever the promotion
decisions were. -/
theorem C9_examples_accumulate {E : Type} (train : ℕ → List E → ℕ)
    (victory_threshold : ℕ) (iters : List (List E × ℕ)) (net0 : ℕ) (i : ℕ)
    (h : i < iters.length) :
    (examplesTrace train victory_threshold iters (net0, []))[i]?
      = some (((iters.map Prod.fst).take (i + 1)).flatten) := by
  have := examplesTrace_getElem train victory_threshold iters (net0, []) i h
  simpa using this

/-- C9 witness: two iterations, the first rejected (tally 0 below threshold
1), the second trained on the concatenation of both batches. -/
theorem C9_examples_accumulate_witness :
    (examplesTrace (fun n (_ : List ℕ) => n + 1) 1 [([1], 0), ([2], 3)]
        (0, []))[1]? = some [1, 2] := by
  have := C9_examples_accumulate (fun n (_ : List ℕ) => n + 1) 1
    [([1], 0), ([2], 3)] 0 1 (by decide)
  simpa using this

/-- Every entry of the array is bounded by `ndarray.max()` as modelled by
`arrayMax` (for the non-negative arrays at hand). -/
theorem le_arrayMax {l : List ℚ} {x : ℚ} (hx : x ∈ l) : x ≤ arrayMax l := by
  induction l with
  | nil => cases hx
  | cons a t ih =>
    rcases List.mem_cons.mp hx with rfl | h
    · exact le_max_left _ _
    · exact le_trans (ih h) (le_max_right _ _)

/-- `arrayMax` is attained by some entry, unless it is the default 0. -/
theorem arrayMax_eq_zero_or_mem (l : List ℚ) :
    arrayMax l = 0 ∨ arrayMax l ∈ l := by
  induction l with
  | nil => exact Or.inl rfl
  | cons a t ih =>
    have hm : arrayMax (a :: t) = max a (arrayMax t) := rfl
    rcases max_choice a (arrayMax t) with h | h
    · right
      rw [hm, h]
      exact List.mem_cons_self a t
    · rcases ih with h0 | hmem
      · left
        rw [hm, h, h0]
      · right
        rw [hm, h]
        exact List.mem_cons_of_mem a hmem

/-- Cell membership in the row-major enumeration of the n-by-n board. -/
theorem mem_allCells {n : ℕ} {c : Cell} :
    c ∈ allCells n ↔ c.1 < n ∧ c.2 < n := by
  obtain ⟨r, col⟩ := c
  unfold allCells
  rw [show List.product (List.range n) (List.range n)
      = List.range n ×ˢ List.range n from rfl]
  simp [List.mem_product]

/-- The row-major cell enumeration has no duplicates. -/
theorem allCells_nodup (n : ℕ) : (allCells n).Nodup :=
  (List.nodup_range n).product (List.nodup_range n)

/-- Summing an indicator restriction of a function over a duplicate-free
enumeration equals summing the function over the (duplicate-free) restricted
index list. -/
theorem sum_map_indicator {A : Type} [DecidableEq A] (w : A → ℝ)
    (l acts : List A) (hl : l.Nodup) (hacts : acts.Nodup)
    (hsub : ∀ a ∈ acts, a ∈ l) :
    (l.map (fun c => if c ∈ acts then w c else 0)).sum = (acts.map w).sum := by
  rw [← List.sum_toFinset _ hl, ← List.sum_toFinset _ hacts]
  have hfn : (fun c => if c ∈ acts then w c else 0)
      = fun c => if c ∈ acts.toFinset then w c else 0 := by
    funext c
    simp [List.mem_toFinset]
  rw [hfn, Finset.sum_ite_mem]
  congr 1
  rw [Finset.inter_eq_right]
  intro a ha
  rw [List.mem_toFinset] at ha ⊢
  exact hsub a ha

/-- Sum of termwise division. -/
theorem list_sum_map_div {A : Type} (l : List A) (f : A → ℝ) (d : ℝ) :
    (l.map (fun a => f a / d)).sum = (l.map f).sum / d := by
  induction l with
  | nil => simp
  | cons a t ih => simp [ih, add_div]

/-- C4 counterexample: called at temperature 0 on a state with no legal
actions (and hence no recorded visits), get_policy_action_probabilities
completes normally and returns a degenerate one-hot distribution over the
whole board (here with random.choice modelled as taking the first
maximiser) instead of raising an error. -/
theorem C4_counterexample :
    getPolicyActionProbabilities 2 (fun l => l.headD (0, 0)) [] (fun _ => 0) 0
        (0, 0) = 1
    ∧ getPolicyActionProbabilities 2 (fun l => l.headD (0, 0)) [] (fun _ => 0) 0
        (1, 1) = 0 := by
  constructor
  · show ((policyTemperatureZero 2 (fun l => l.headD (0, 0)) [] (fun _ => 0)
        (0, 0) : ℚ) : ℝ) = 1
    rw [show policyTemperatureZero 2 (fun l => l.headD (0, 0)) [] (fun _ => 0)
        (0, 0) = 1 by decide]
    exact Rat.cast_one
  · show ((policyTemperatureZero 2 (fun l => l.headD (0, 0)) [] (fun _ => 0)
        (1, 1) : ℚ) : ℝ) = 0
    rw [show policyTemperatureZero 2 (fun l => l.headD (0, 0)) [] (fun _ => 0)
        (1, 1) = 0 by decide]
    exact Rat.cast_zero

/-- C4 amended: get_policy_action_probabilities performs no validity check:
at temperature 0 on a state whose legal actions all have visit count 0 — in
particular on a terminal state with no legal actions, or one never touched
by a simulation — it silently returns a one-hot distribution at a cell
chosen among all board cells (every cell ties for the maximum 0), rather
than raising an error. -/
theorem C4_no_error_on_degenerate_state (n : ℕ) (choice : List Cell → Cell)
    (actions : List Cell) (visits : Cell → ℕ) (hn : 0 < n)
    (hch : ∀ l : List Cell, l ≠ [] → choice l ∈ l)
    (hdeg : ∀ c ∈ actions, visits c = 0) :
    ∃ c ∈ allCells n,
      getPolicyActionProbabilities n choice actions visits 0
        = fun x => if x = c then (1 : ℝ) else 0 := by
  have hprobs : ∀ c : Cell, tempZeroProbs actions visits c = 0 := by
    intro c
    unfold tempZeroProbs
    by_cases hc : c ∈ actions
    · simp [hc, hdeg c hc]
    · simp [hc]
  have hmax : arrayMax ((allCells n).map (tempZeroProbs actions visits)) = 0 := by
    rcases arrayMax_eq_zero_or_mem ((allCells n).map (tempZeroProbs actions visits))
      with h | h
    · exact h
    · obtain ⟨c, _, hc⟩ := List.mem_map.mp h
      rw [← hc, hprobs]
  have hbests : tempZeroBests n actions visits = allCells n := by
    unfold tempZeroBests
    rw [List.filter_eq_self]
    intro c _
    simp [hprobs, hmax]
  have hne : allCells n ≠ [] := by
    apply List.ne_nil_of_mem (a := ((0, 0) : Cell))
    exact mem_allCells.mpr ⟨hn, hn⟩
  have hcb : choice (allCells n) ∈ allCells n := hch _ hne
  refine ⟨choice (allCells n), hcb, ?_⟩
  funext x
  show ((policyTemperatureZero n choice actions visits x : ℚ) : ℝ) = _
  unfold policyTemperatureZero
  rw [hbests]
  by_cases hx : x = choice (allCells n)
  · simp [hx]
  · simp [hx]

/-- C4 amended, witness: one-cell board, empty action list. -/
theorem C4_no_error_on_degenerate_state_witness :
    ∃ c ∈ allCells 1,
      getPolicyActionProbabilities 1 (fun l => l.headD (0, 0)) [] (fun _ => 0) 0
        = fun x => if x = c then (1 : ℝ) else 0 :=
  C4_no_error_on_degenerate_state 1 (fun l => l.headD (0, 0)) [] (fun _ => 0)
    (by decide)
    (fun l hl => by
      cases l with
      | nil => exact absurd rfl hl
      | cons a t => simp)
    (fun c hc => absurd hc (List.not_mem_nil c))

/-- Mapping equal-on-members functions over a list gives equal lists. -/
theorem list_map_congr_mem {A B : Type} (l : List A) (f g : A → B)
    (h : ∀ a ∈ l, f a = g a) : l.map f = l.map g := by
  induction l with
  | nil => rfl
  | cons a t ih =>
    rw [List.map_cons, List.map_cons, h a (List.mem_cons_self a t),
      ih (fun x hx => h x (List.mem_cons_of_mem a hx))]

/-- C5: on a state with at least one legal action carrying a positive visit
count (the situation after at least one completed simulation, per the
spec's visit-count accounting): at temperature 0 the returned distribution
is one-hot at a legal action of maximal visit count (whichever maximiser
the random tie-break selects); at any temperature > 0 the returned
distribution vanishes outside the legal actions, is proportional to visit
count to the power 1/temperature on them, and sums to 1. -/
theorem C5_policy_shapes (n : ℕ) (choice : List Cell → Cell)
    (actions : List Cell) (visits : Cell → ℕ) (temperature : ℚ)
    (hch : ∀ l : List Cell, l ≠ [] → choice l ∈ l)
    (hsub : ∀ c ∈ actions, c ∈ allCells n)
    (hnd : actions.Nodup)
    (hsim : ∃ c ∈ actions, 1 ≤ visits c) :
    (temperature = 0 →
      ∃ c ∈ actions, (∀ a ∈ actions, visits a ≤ visits c)
        ∧ getPolicyActionProbabilities n choice actions visits temperature
            = fun x => if x = c then (1 : ℝ) else 0)
    ∧ (0 < temperature →
        (∀ c : Cell, c ∉ actions →
            getPolicyActionProbabilities n choice actions visits temperature c
              = 0)
        ∧ (∀ c ∈ actions,
            getPolicyActionProbabilities n choice actions visits temperature c
              * (actions.map
                  (fun a => (visits a : ℝ) ^ ((1 : ℝ) / (temperature : ℝ)))).sum
              = (visits c : ℝ) ^ ((1 : ℝ) / (temperature : ℝ)))
        ∧ (actions.map
            (getPolicyActionProbabilities n choice actions visits
              temperature)).sum = 1) := by
  obtain ⟨c₀, hc₀a, hc₀v⟩ := hsim
  constructor
  · intro ht
    subst ht
    have hc₀l : c₀ ∈ allCells n := hsub c₀ hc₀a
    have hpc₀ : tempZeroProbs actions visits c₀ = (visits c₀ : ℚ) :=
      if_pos hc₀a
    have h1max : (1 : ℚ)
        ≤ arrayMax ((allCells n).map (tempZeroProbs actions visits)) := by
      refine le_trans ?_ (le_arrayMax (List.mem_map_of_mem _ hc₀l))
      rw [hpc₀]
      exact_mod_cast hc₀v
    have hmax_mem : arrayMax ((allCells n).map (tempZeroProbs actions visits))
        ∈ (allCells n).map (tempZeroProbs actions visits) := by
      rcases arrayMax_eq_zero_or_mem
          ((allCells n).map (tempZeroProbs actions visits)) with h | h
      · rw [h] at h1max
        norm_num at h1max
      · exact h
    obtain ⟨cm, hcml, hcmv⟩ := List.mem_map.mp hmax_mem
    have hbm : cm ∈ tempZeroBests n actions visits := by
      unfold tempZeroBests
      rw [List.mem_filter]
      exact ⟨hcml, by simp [hcmv]⟩
    have hcb : choice (tempZeroBests n actions visits)
        ∈ (allCells n).filter
          (fun c => decide (tempZeroProbs actions visits c
            = arrayMax ((allCells n).map (tempZeroProbs actions visits)))) :=
      hch _ (List.ne_nil_of_mem hbm)
    obtain ⟨hchl, hchv⟩ := List.mem_filter.mp hcb
    have hchosen : tempZeroProbs actions visits
        (choice (tempZeroBests n actions visits))
        = arrayMax ((allCells n).map (tempZeroProbs actions visits)) :=
      of_decide_eq_true hchv
    have hcha : choice (tempZeroBests n actions visits) ∈ actions := by
      by_contra hna
      rw [show tempZeroProbs actions visits
          (choice (tempZeroBests n actions visits)) = 0 from if_neg hna]
        at hchosen
      rw [← hchosen] at h1max
      norm_num at h1max
    have hvis : (visits (choice (tempZeroBests n actions visits)) : ℚ)
        = arrayMax ((allCells n).map (tempZeroProbs actions visits)) := by
      rw [← hchosen]
      exact (if_pos hcha).symm
    refine ⟨choice (tempZeroBests n actions visits), hcha, ?_, ?_⟩
    · intro a ha
      have hle : tempZeroProbs actions visits a
          ≤ arrayMax ((allCells n).map (tempZeroProbs actions visits)) :=
        le_arrayMax (List.mem_map_of_mem _ (hsub a ha))
      rw [show tempZeroProbs actions visits a = (visits a : ℚ) from if_pos ha,
        ← hvis] at hle
      exact_mod_cast hle
    · funext x
      show ((policyTemperatureZero n choice actions visits x : ℚ) : ℝ) = _
      unfold policyTemperatureZero
      by_cases hx : x = choice (tempZeroBests n actions visits)
      · simp [hx]
      · simp [hx]
  · intro htpos
    have htR : (0 : ℝ) < (temperature : ℝ) := by exact_mod_cast htpos
    have hexp : (0 : ℝ) ≤ (1 : ℝ) / (temperature : ℝ) :=
      le_of_lt (div_pos one_pos htR)
    have hge : getPolicyActionProbabilities n choice actions visits temperature
        = policyTemperaturePos n actions visits temperature := by
      unfold getPolicyActionProbabilities
      rw [if_neg (ne_of_gt htpos)]
    have htot : ((allCells n).map (posWeight actions visits temperature)).sum
        = (actions.map
            (fun a => (visits a : ℝ) ^ ((1 : ℝ) / (temperature : ℝ)))).sum := by
      have h := sum_map_indicator
        (fun a => (visits a : ℝ) ^ ((1 : ℝ) / (temperature : ℝ)))
        (allCells n) actions (allCells_nodup n) hnd hsub
      rw [← h]
      congr 1
      apply list_map_congr_mem
      intro a ha
      by_cases haa : a ∈ actions <;> simp [posWeight, haa]
    have hwnonneg : ∀ x ∈ actions.map
        (fun a => (visits a : ℝ) ^ ((1 : ℝ) / (temperature : ℝ))), 0 ≤ x := by
      intro x hx
      obtain ⟨a, _, rfl⟩ := List.mem_map.mp hx
      exact Real.rpow_nonneg (Nat.cast_nonneg _) _
    have hw1 : (1 : ℝ) ≤ (visits c₀ : ℝ) ^ ((1 : ℝ) / (temperature : ℝ)) := by
      have h1 : (1 : ℝ) ≤ (visits c₀ : ℝ) := by exact_mod_cast hc₀v
      calc (1 : ℝ) = (1 : ℝ) ^ ((1 : ℝ) / (temperature : ℝ)) :=
            (Real.one_rpow _).symm
        _ ≤ (visits c₀ : ℝ) ^ ((1 : ℝ) / (temperature : ℝ)) :=
            Real.rpow_le_rpow (by norm_num) h1 hexp
    have hsumpos : 0 < (actions.map
        (fun a => (visits a : ℝ) ^ ((1 : ℝ) / (temperature : ℝ)))).sum :=
      lt_of_lt_of_le one_pos
        (le_trans hw1
          (List.single_le_sum hwnonneg _ (List.mem_map_of_mem _ hc₀a)))
    refine ⟨?_, ?_, ?_⟩
    · intro c hc
      rw [hge]
      show posWeight actions visits temperature c
          / ((allCells n).map (posWeight actions visits temperature)).sum = 0
      rw [show posWeight actions visits temperature c = 0 from if_neg hc]
      exact zero_div _
    · intro c hc
      rw [hge]
      show posWeight actions visits temperature c
          / ((allCells n).map (posWeight actions visits temperature)).sum
          * (actions.map
              (fun a => (visits a : ℝ) ^ ((1 : ℝ) / (temperature : ℝ)))).sum
          = (visits c : ℝ) ^ ((1 : ℝ) / (temperature : ℝ))
      rw [htot, show posWeight actions visits temperature c
          = (visits c : ℝ) ^ ((1 : ℝ) / (temperature : ℝ)) from if_pos hc]
      exact div_mul_cancel₀ _ (ne_of_gt hsumpos)
    · rw [hge]
      have hmapeq : actions.map (policyTemperaturePos n actions visits temperature)
          = actions.map
              (fun a => ((visits a : ℝ) ^ ((1 : ℝ) / (temperature : ℝ)))
                / (actions.map
                    (fun a => (visits a : ℝ) ^ ((1 : ℝ) / (temperature : ℝ)))).sum) := by
        apply list_map_congr_mem
        intro a ha
        show posWeight actions visits temperature a
            / ((allCells n).map (posWeight actions visits temperature)).sum
            = (visits a : ℝ) ^ ((1 : ℝ) / (temperature : ℝ))
              / (actions.map
                  (fun a => (visits a : ℝ) ^ ((1 : ℝ) / (temperature : ℝ)))).sum
        rw [htot, show posWeight actions visits temperature a
            = (visits a : ℝ) ^ ((1 : ℝ) / (temperature : ℝ)) from if_pos ha]
      rw [hmapeq, list_sum_map_div]
      exact div_self (ne_of_gt hsumpos)

/-- C5 witness: 2-by-2 board, legal actions (0,1) and (1,0) with visit
counts 2 and 1, temperature 0: the distribution is one-hot at a maximal
legal action. -/
theorem C5_policy_shapes_witness :
    ∃ c ∈ [((0, 1) : Cell), (1, 0)],
      (∀ a ∈ [((0, 1) : Cell), (1, 0)],
        (fun x : Cell => if x = (0, 1) then 2 else 1) a
          ≤ (fun x : Cell => if x = (0, 1) then 2 else 1) c)
      ∧ getPolicyActionProbabilities 2 (fun l => l.headD (0, 0))
          [((0, 1) : Cell), (1, 0)]
          (fun x : Cell => if x = (0, 1) then 2 else 1) 0
          = fun x => if x = c then (1 : ℝ) else 0 :=
  (C5_policy_shapes 2 (fun l => l.headD (0, 0)) [((0, 1) : Cell), (1, 0)]
      (fun x : Cell => if x = (0, 1) then 2 else 1) 0
      (fun l hl => by
        cases l with
        | nil => exact absurd rfl hl
        | cons a t => simp)
      (by decide) (by decide) (by decide)).1 rfl

/-- C1 witness: a duel the new network (playing WHITE) actually wins still
contributes nothing to the tally. -/
theorem C1_duel_returns_player_not_evaluator_witness :
    countNewNetVictories 7
        ([some OthelloPlayer.white].map (duel_between_neural_networks 3 7)) = 0 :=
  (C1_duel_returns_player_not_evaluator 3 7 [some OthelloPlayer.white]).1
